import Mathlib

/-!
# Verification of the `accept-header` crate

A shallow embedding of the `accept-header` Rust crate (files `src/lib.rs`,
`src/media_type.rs`, `src/accept.rs`, `src/error.rs`) together with proofs
about it.

Modelling conventions:
* Rust `&str` values are modelled as `List Char`; `str::split`, `str::trim`
  and `str::strip_prefix` are modelled by executable list functions below.
* `f32` quality weights are modelled as exact rationals (`ℚ`), built through
  the core constructors (`Rat.divInt`) so that every definition evaluates
  inside the kernel.  The model covers finite decimal/scientific literals,
  which is the fragment exercised by the crate; the special `f32` literals
  `inf`/`nan` and binary rounding beyond decimal-exact values are outside
  the model.
* The external `mime` crate is a collaborator that the crate only uses for
  parsing a `type/subtype` pair, for equality, for the wildcard check
  (`type_() == mime::STAR`) and for `Display`.  It is modelled by `Mime`,
  `mimeParse` and `mimeRender` below, restricted to parameter-free
  `type/subtype` token pairs (the only shape reachable here, because the
  crate always splits on `';'` before invoking the mime parser).
* `HashSet<Mime>` is modelled as the list of elements in iteration order:
  `contains` is list membership and `iter().next()` is the list head.
-/

/-! ## Basic string primitives (models of Rust `str` operations) -/

/-- Computes `10 ^ k` on `ℕ` by structural recursion (kernel-friendly). -/
def pow10 : ℕ → ℕ
  | 0 => 1
  | k + 1 => 10 * pow10 k

/-- Models Rust `str::split(c)`: the list of (possibly empty) chunks between
occurrences of `c`.  Always returns a non-empty list, like Rust's splitter. -/
def splitOnChar (c : Char) : List Char → List (List Char)
  | [] => [[]]
  | x :: xs =>
    if x = c then [] :: splitOnChar c xs
    else
      match splitOnChar c xs with
      | [] => [[x]]
      | y :: ys => (x :: y) :: ys

/-- Leading-whitespace trim (`str::trim_start`). -/
def trimLeftChars (l : List Char) : List Char := l.dropWhile Char.isWhitespace

/-- Trailing-whitespace trim (`str::trim_end`). -/
def trimRightChars (l : List Char) : List Char :=
  (l.reverse.dropWhile Char.isWhitespace).reverse

/-- Models Rust `str::trim` (both ends). -/
def trimChars (l : List Char) : List Char := trimLeftChars (trimRightChars l)

/-- Models `itertools::join(sep)`: concatenation with `sep` between chunks,
empty output for an empty iterator. -/
def joinSep (sep : List Char) : List (List Char) → List Char
  | [] => []
  | [x] => x
  | x :: xs => x ++ sep ++ joinSep sep xs

/-- Numeric value of a digit string, most significant digit first. -/
def digitsVal (ds : List Char) : ℕ := ds.foldl (fun a c => 10 * a + (c.toNat - 48)) 0

/-- The character for the digit `n < 10`. -/
def digitChar10 (n : ℕ) : Char := Char.ofNat (48 + n)

/-- Decimal digit string of `n`, fuel-indexed so it is structural. -/
def natToCharsAux : ℕ → ℕ → List Char
  | 0, _ => []
  | fuel + 1, n =>
    if n < 10 then [digitChar10 n]
    else natToCharsAux fuel (n / 10) ++ [digitChar10 (n % 10)]

/-- Decimal digit string of `n` (e.g. `natToChars 90 = "90".data`). -/
def natToChars (n : ℕ) : List Char := natToCharsAux (n + 1) n

/-- Left-pad a digit string with `'0'` to length `k`. -/
def padZeros (k : ℕ) (ds : List Char) : List Char :=
  List.replicate (k - ds.length) '0' ++ ds

/-- Search for the least `k` with `den ∣ 10 ^ k`, fuel-indexed. -/
def decExpAux : ℕ → ℕ → ℕ → ℕ
  | 0, _, k => k
  | fuel + 1, den, k => if pow10 k % den = 0 then k else decExpAux fuel den (k + 1)

/-- The least `k ≤ den` with `den ∣ 10 ^ k` (when one exists); used to render
a decimal-exact rational the way Rust's shortest-roundtrip `Display` prints
the corresponding `f32`. -/
def decExp (den : ℕ) : ℕ := decExpAux (den + 1) den 0

/-! ## The `mime` collaborator -/

/-- Characters the modelled mime parser accepts inside a `type` or `subtype`
token.  Excludes `'/'`, `';'`, `','` and whitespace, which is what the
round-trip behaviour of the crate relies on. -/
def isTokenChar (c : Char) : Bool :=
  c.isAlphanum || c = '*' || c = '-' || c = '+' || c = '.' || c = '_'

/-- Model of `mime::Mime` restricted to a parameter-free `type/subtype`
pair: the crate only ever parses the part of a header segment before the
first `';'`, so parameters never reach the mime parser. -/
structure Mime where
  type_ : List Char
  subtype : List Char
deriving DecidableEq, Repr

/-- Model of `mime::Mime::from_str` on parameter-free input: accept exactly
`type/subtype` with both tokens non-empty.  (Case normalisation of the real
crate is not modelled; every claim is case-uniform.) -/
def mimeParse (s : List Char) : Option Mime :=
  match splitOnChar '/' s with
  | [t, st] =>
    if t ≠ [] ∧ st ≠ [] ∧ t.all isTokenChar ∧ st.all isTokenChar then
      some ⟨t, st⟩
    else none
  | _ => none

/-- Model of `Display for mime::Mime`. -/
def mimeRender (m : Mime) : List Char := m.type_ ++ '/' :: m.subtype

/-- The constant `mime::TEXT_HTML`. -/
def textHtmlMime : Mime := ⟨"text".data, "html".data⟩

/-- The wildcard type component `mime::STAR` (`"*"`). -/
def starChars : List Char := ['*']

/-! ## Error taxonomy (`src/error.rs`) -/

/-- Model of the crate's `Error` enum; the `source` fields of the Rust
variants (the underlying `mime::FromStrError` / `ParseFloatError`) carry no
information used by the crate, so only the `value` payloads are kept. -/
inductive Error where
  | mediaType (value : List Char)
  | parseWeight (value : List Char)
  | weightRange (value : ℚ)
deriving DecidableEq, Repr

/-- The only `http::StatusCode` the crate produces: `NOT_ACCEPTABLE` (406). -/
inductive StatusCode where
  | notAcceptable
deriving DecidableEq, Repr

/-! ## `MediaType` (`src/lib.rs`, `src/media_type.rs`) -/

/-- The crate's `MediaType` struct. -/
structure MediaType where
  mime : Mime
  weight : Option ℚ
deriving DecidableEq, Repr

/-- Exponent suffix of a float literal: `""` means exponent `0`; otherwise
`e`/`E`, an optional sign and at least one digit, consuming the whole rest. -/
def parseExpPart : List Char → Option ℤ
  | [] => some 0
  | c :: r =>
    if c = 'e' ∨ c = 'E' then
      let sr : ℤ × List Char :=
        match r with
        | '+' :: t => (1, t)
        | '-' :: t => (-1, t)
        | t => (1, t)
      let ds := sr.2.takeWhile Char.isDigit
      if ds = [] ∨ sr.2.dropWhile Char.isDigit ≠ [] then none
      else some (sr.1 * (digitsVal ds : ℤ))
    else none

/-- The value `mantissa / 10 ^ flen * 10 ^ e` as an exact rational. -/
def applyExp (n : ℤ) (flen : ℕ) (e : ℤ) : ℚ :=
  if 0 ≤ e - (flen : ℤ) then Rat.divInt (n * ((pow10 (e - (flen : ℤ)).toNat : ℕ) : ℤ)) 1
  else Rat.divInt n ((pow10 ((flen : ℤ) - e).toNat : ℕ) : ℤ)

/-- The part of a float literal after the optional sign: integer digits,
optionally `'.'` and fraction digits (at least one digit overall), then the
optional exponent suffix. -/
def parseMantissa (sgn : ℤ) (ds : List Char) : Option ℚ :=
  match ds.dropWhile Char.isDigit with
  | '.' :: rest2 =>
    if ds.takeWhile Char.isDigit = [] ∧ rest2.takeWhile Char.isDigit = [] then none
    else
      match parseExpPart (rest2.dropWhile Char.isDigit) with
      | none => none
      | some e =>
        some (applyExp
          (sgn * (digitsVal (ds.takeWhile Char.isDigit ++ rest2.takeWhile Char.isDigit) : ℤ))
          (rest2.takeWhile Char.isDigit).length e)
  | rest1 =>
    if ds.takeWhile Char.isDigit = [] then none
    else
      match parseExpPart rest1 with
      | none => none
      | some e => some (applyExp (sgn * (digitsVal (ds.takeWhile Char.isDigit) : ℤ)) 0 e)

/-- Model of Rust `<f32 as FromStr>::from_str` on finite literals: an
optional sign, then digits with an optional single `'.'` (at least one digit
overall), then an optional exponent; anything else is rejected.  The value
is kept exact in `ℚ` instead of being rounded to binary.  The special
literals accepted by Rust for infinities and NaN are outside the model (the
crate immediately range-checks weights against `[0, 1]`, so they could only
surface through an exotic out-of-range error payload). -/
def parseDecimal (s : List Char) : Option ℚ :=
  if s.headD ' ' = '+' then parseMantissa 1 s.tail
  else if s.headD ' ' = '-' then parseMantissa (-1) s.tail
  else parseMantissa 1 s

/-- Model of `str::strip_prefix("q=")`. -/
def stripQ : List Char → Option (List Char)
  | 'q' :: '=' :: r => some r
  | _ => none

/-- The body of `<MediaType as FromStr>::from_str` (`src/media_type.rs`)
after `s.split(';')`: the Rust code calls `parts.next()` twice, i.e. it
consumes the first chunk (`headD`, always present) and the optional second
chunk (`[1]?`); later chunks are never requested.  The first (trimmed)
chunk must be a mime value; the second is trimmed and a literal `q=` prefix
is stripped (its absence means "no weight", not an error); the remainder is
parsed as a float (re-trimmed, while the error payload keeps the
un-retrimmed remainder, exactly as `value: v` does in the Rust code) and
range-checked against `[0.0, 1.0]`. -/
def MediaType.fromParts (parts : List (List Char)) : Except Error MediaType :=
  match mimeParse (trimChars (parts.headD [])) with
  | none => .error (.mediaType (trimChars (parts.headD [])))
  | some mime =>
    match parts[1]? with
    | none => .ok ⟨mime, none⟩
    | some p2 =>
      match stripQ (trimChars p2) with
      | none => .ok ⟨mime, none⟩
      | some v2 =>
        match parseDecimal (trimChars v2) with
        | none => .error (.parseWeight v2)
        | some w =>
          if 0 ≤ w ∧ w ≤ 1 then .ok ⟨mime, some w⟩
          else .error (.weightRange w)

/-- Model of `<MediaType as FromStr>::from_str`. -/
def MediaType.fromStr (s : List Char) : Except Error MediaType :=
  MediaType.fromParts (splitOnChar ';' s)

/-- Model of `<MediaType as PartialOrd>::partial_cmp`: comparison is by
weight only; two explicit weights compare numerically (`f32::partial_cmp`,
total on the non-NaN values the model covers), an explicit weight beats an
absent one, and two absent weights are equal. -/
def MediaType.partialCmp (a b : MediaType) : Option Ordering :=
  match a.weight, b.weight with
  | some l, some r => some (if l < r then .lt else if l = r then .eq else .gt)
  | some _, none => some .gt
  | none, some _ => some .lt
  | none, none => some .eq

/-- Model of `Display for MediaType`: the mime value, then `;q=<weight>`
only when a weight is present.  `weightToChars` renders the weight the way
Rust's `Display for f32` prints it (shortest decimal form, e.g. `0.9`, `1`,
`0.05`). -/
def weightToChars (w : ℚ) : List Char :=
  let den := w.den
  let k := decExp den
  let scaled := w.num.toNat * (pow10 k / den)
  if k = 0 then natToChars scaled
  else natToChars (scaled / pow10 k) ++ '.' :: padZeros k (natToChars (scaled % pow10 k))

def MediaType.render (m : MediaType) : List Char :=
  mimeRender m.mime ++
    match m.weight with
    | none => []
    | some w => ';' :: 'q' :: '=' :: weightToChars w

/-! ## `Accept` (`src/lib.rs`, `src/accept.rs`) -/

/-- The crate's `Accept` struct. -/
structure Accept where
  wildcard : Option MediaType
  types : List MediaType
deriving DecidableEq, Repr

/-- One step of the parsing loop's classification: a wildcard-typed entry
overwrites the `wildcard` slot, anything else is pushed onto `types`. -/
def scanStep (acc : Option MediaType × List MediaType) (mt : MediaType) :
    Option MediaType × List MediaType :=
  if mt.mime.type_ = starChars then (some mt, acc.2) else (acc.1, acc.2 ++ [mt])

/-- Parse every comma-chunk (trimmed) as a `MediaType`, left to right,
surfacing the first error: the parsing part of the loop in
`<Accept as FromStr>::from_str`. -/
def parseParts : List (List Char) → Except Error (List MediaType)
  | [] => .ok []
  | p :: ps =>
    match MediaType.fromStr (trimChars p) with
    | .error e => .error e
    | .ok mt =>
      match parseParts ps with
      | .error e => .error e
      | .ok rest => .ok (mt :: rest)

/-- The comparator `|a, b| b.partial_cmp(a).unwrap_or(Ordering::Equal)`
passed to `sort_by`. -/
def rustCmp (a b : MediaType) : Ordering := (MediaType.partialCmp b a).getD .eq

/-- Stable insertion of `x` into an already arranged list: `x` moves before
`y` only when the comparator says `x` strictly precedes `y`, so elements
comparing equal keep their original relative order. -/
def insertDesc (x : MediaType) : List MediaType → List MediaType
  | [] => [x]
  | y :: ys => if rustCmp x y = .lt then x :: y :: ys else y :: insertDesc x ys

/-- Model of `Vec::sort_by` with the comparator above.  Rust's `sort_by` is
a stable sort and `rustCmp` is induced by a total preorder on weights, so
the stable insertion sort below returns the identical list. -/
def sortTypes (l : List MediaType) : List MediaType :=
  l.foldl (fun acc x => insertDesc x acc) []

/-- Model of `<Accept as FromStr>::from_str`: split on `','`, parse each
trimmed chunk, classify wildcard vs. plain entries in one left-to-right
pass (the Rust loop interleaves parsing and classification; as
classification cannot fail, doing all parsing first is observationally
identical), then sort the plain entries. -/
def Accept.fromStr (s : List Char) : Except Error Accept :=
  match parseParts (splitOnChar ',' s) with
  | .error e => .error e
  | .ok entries =>
    let p := entries.foldl scanStep (none, [])
    .ok { wildcard := p.1, types := sortTypes p.2 }

/-- Model of `Accept::negotiate`: first entry of `types` whose mime is
available; otherwise, if a wildcard is present, `text/html` when available,
else the first available entry; otherwise 406. -/
def Accept.negotiate (a : Accept) (available : List Mime) :
    Except StatusCode Mime :=
  match a.types.find? (fun mt => available.contains mt.mime) with
  | some mt => .ok mt.mime
  | none =>
    match a.wildcard with
    | some _ =>
      if available.contains textHtmlMime then .ok textHtmlMime
      else
        match available with
        | m :: _ => .ok m
        | [] => .error .notAcceptable
    | none => .error .notAcceptable

/-- Model of `Display for Accept`: the `types` entries joined by `", "`,
then `", <wildcard>"` when a wildcard is present (also when `types` is
empty, in which case the output starts with `", "`). -/
def Accept.render (a : Accept) : List Char :=
  joinSep ", ".data (a.types.map MediaType.render) ++
    match a.wildcard with
    | none => []
    | some w => ',' :: ' ' :: MediaType.render w

/-! ## Instances and generic list facts -/

deriving instance DecidableEq for Except

theorem contains_iff_mem {α : Type} [DecidableEq α] (l : List α) (a : α) :
    l.contains a = true ↔ a ∈ l :=
  List.elem_iff

theorem splitOnChar_ne_nil (c : Char) (l : List Char) : splitOnChar c l ≠ [] := by
  induction l with
  | nil => simp [splitOnChar]
  | cons x xs ih =>
    simp only [splitOnChar]
    split
    · simp
    · cases h : splitOnChar c xs <;> simp

theorem splitOnChar_of_not_mem {c : Char} {l : List Char} (h : c ∉ l) :
    splitOnChar c l = [l] := by
  induction l with
  | nil => rfl
  | cons x xs ih =>
    simp only [List.mem_cons, not_or] at h
    simp only [splitOnChar, if_neg (Ne.symm h.1), ih h.2]

theorem splitOnChar_append_sep {c : Char} {a : List Char} (b : List Char)
    (h : c ∉ a) : splitOnChar c (a ++ c :: b) = a :: splitOnChar c b := by
  induction a with
  | nil => simp [splitOnChar]
  | cons x xs ih =>
    simp only [List.mem_cons, not_or] at h
    simp only [List.cons_append, splitOnChar, if_neg (Ne.symm h.1), List.append_eq]
    rw [ih h.2]

theorem trimLeftChars_cons_of_not_ws {x : Char} (l : List Char)
    (h : ¬x.isWhitespace) : trimLeftChars (x :: l) = x :: l := by
  simp [trimLeftChars, List.dropWhile_cons, h]

theorem trimRightChars_append (a b : List Char) :
    trimRightChars (a ++ b) =
      if trimRightChars b = [] then trimRightChars a else a ++ trimRightChars b := by
  simp only [trimRightChars, List.reverse_append, List.dropWhile_append]
  split
  · rename_i h
    rw [if_pos]
    rw [List.isEmpty_iff] at h
    simpa [List.reverse_eq_nil_iff] using h
  · rename_i h
    rw [List.isEmpty_iff] at h
    rw [if_neg]
    · simp
    · simpa [List.reverse_eq_nil_iff] using h

theorem dropWhile_idem (p : Char → Bool) (l : List Char) :
    List.dropWhile p (List.dropWhile p l) = List.dropWhile p l := by
  induction l with
  | nil => rfl
  | cons x xs ih =>
    by_cases h : p x
    · simpa [List.dropWhile_cons, h] using ih
    · simp [List.dropWhile_cons, h]

theorem trimRightChars_idem (l : List Char) :
    trimRightChars (trimRightChars l) = trimRightChars l := by
  simp [trimRightChars, dropWhile_idem]

theorem trimChars_trimRight (l : List Char) :
    trimChars (trimRightChars l) = trimChars l := by
  simp [trimChars, trimRightChars_idem]

theorem trimChars_cons_ws {x : Char} (l : List Char) (h : x.isWhitespace) :
    trimChars (x :: l) = trimChars l := by
  have hx : trimRightChars (x :: l) =
      if trimRightChars l = [] then trimRightChars [x] else x :: trimRightChars l := by
    simpa using trimRightChars_append [x] l
  have hsingle : trimRightChars [x] = [] := by
    simp [trimRightChars, List.dropWhile_cons, h]
  by_cases h0 : trimRightChars l = []
  · rw [trimChars, hx, if_pos h0, hsingle, trimChars, h0]
  · rw [trimChars, hx, if_neg h0, trimChars]
    simp [trimLeftChars, List.dropWhile_cons, h]

theorem trimChars_of_forall_not_ws {l : List Char}
    (h : ∀ x ∈ l, ¬x.isWhitespace) : trimChars l = l := by
  have hgen : ∀ m : List Char, (∀ x ∈ m, ¬x.isWhitespace) →
      List.dropWhile Char.isWhitespace m = m := by
    intro m hm
    cases m with
    | nil => rfl
    | cons y ys => simp [List.dropWhile_cons, hm y (by simp)]
  have h1 : trimRightChars l = l := by
    have := hgen l.reverse (fun x hx => h x (by simpa using hx))
    simp [trimRightChars, this]
  have h2 : trimLeftChars l = l := hgen l h
  simp [trimChars, h1, h2]

/-- The function `find?` returns the element at the first index satisfying the predicate. -/
theorem find?_eq_get_of_first {α : Type} (p : α → Bool) (l : List α) (i : ℕ)
    (h : i < l.length) (hp : p (l.get ⟨i, h⟩))
    (hfirst : ∀ j (hj : j < l.length), j < i → ¬p (l.get ⟨j, hj⟩)) :
    l.find? p = some (l.get ⟨i, h⟩) := by
  induction l generalizing i with
  | nil => exact absurd h (by simp)
  | cons x xs ih =>
    cases i with
    | zero => exact List.find?_cons_of_pos _ hp
    | succ n =>
      have hx : ¬p x = true := hfirst 0 (by simp) (Nat.succ_pos n)
      rw [List.find?_cons_of_neg _ (by simpa using hx)]
      exact ih n (Nat.lt_of_succ_lt_succ h) hp
        (fun j hj hji => hfirst (j + 1) (Nat.succ_lt_succ hj) (Nat.succ_lt_succ hji))

/-! ## C1: the wildcard weight cascade is absent from the code -/

/-- C1, counterexample: parsing
`"application/json, text/html;q=0.9, text/plain;q=0.8, */*;q=0.7"` does
not produce the cascaded result the claim asserts (with `application/json`
carrying the wildcard's weight `0.7`). -/
theorem c1_cascade_cex :
    Accept.fromStr "application/json, text/html;q=0.9, text/plain;q=0.8, */*;q=0.7".data ≠
      Except.ok ⟨some ⟨⟨starChars, starChars⟩, some (Rat.divInt 7 10)⟩,
        [⟨⟨"text".data, "html".data⟩, some (Rat.divInt 9 10)⟩,
         ⟨⟨"text".data, "plain".data⟩, some (Rat.divInt 8 10)⟩,
         ⟨⟨"application".data, "json".data⟩, some (Rat.divInt 7 10)⟩]⟩ := by
  decide

/-- C1, amended: no weight cascade happens.  Parsing the example header
yields `wildcard = */*;q=0.7` and `types` in the order
`[text/html;q=0.9, text/plain;q=0.8, application/json]`, the unweighted
`application/json` keeping no weight (and sorting last, because the
comparison rule ranks an explicit weight above an absent one). -/
theorem c1_no_cascade :
    Accept.fromStr "application/json, text/html;q=0.9, text/plain;q=0.8, */*;q=0.7".data =
      Except.ok ⟨some ⟨⟨starChars, starChars⟩, some (Rat.divInt 7 10)⟩,
        [⟨⟨"text".data, "html".data⟩, some (Rat.divInt 9 10)⟩,
         ⟨⟨"text".data, "plain".data⟩, some (Rat.divInt 8 10)⟩,
         ⟨⟨"application".data, "json".data⟩, none⟩]⟩ := rfl

/-! ## C2: the sort puts unweighted entries last, contradicting the
crate's own tests -/

/-- C2: evaluating the parser at the crate's own test input
(`accept_should_be_parsed_and_sorted`).  The code sorts the unweighted
`application/json` *last* (the `partial_cmp` of `src/media_type.rs` makes
any explicit weight greater than an absent one, and the comparator
`b.partial_cmp(a)` sorts descending by that rule), while that test — and
the claim — expect it *first*, treated as `q = 1.0`. -/
theorem c2_unweighted_sorts_last :
    Accept.fromStr
        "application/json, text/html;q=0.9, text/plain;q=0.8, */*;q=0.7, */*;q=0.6".data =
      Except.ok ⟨some ⟨⟨starChars, starChars⟩, some (Rat.divInt 6 10)⟩,
        [⟨⟨"text".data, "html".data⟩, some (Rat.divInt 9 10)⟩,
         ⟨⟨"text".data, "plain".data⟩, some (Rat.divInt 8 10)⟩,
         ⟨⟨"application".data, "json".data⟩, none⟩]⟩ := rfl

/-! ## C9: formatting round-trip -/

/-- C9, counterexample: an `Accept` parsed from `"*/*"` has an empty
`types` list, so formatting it emits a leading `", "`; parsing that output
fails (the empty first chunk is not a mime value), refuting the claimed
round-trip for every successful parse. -/
theorem c9_roundtrip_cex :
    Accept.fromStr "*/*".data = Except.ok ⟨some ⟨⟨starChars, starChars⟩, none⟩, []⟩ ∧
    Accept.render ⟨some ⟨⟨starChars, starChars⟩, none⟩, []⟩ = ", */*".data ∧
    Accept.fromStr (Accept.render ⟨some ⟨⟨starChars, starChars⟩, none⟩, []⟩) =
      Except.error (Error.mediaType []) :=
  ⟨rfl, rfl, rfl⟩

/-! ## C6: the `partial_cmp` comparison rule -/

/-- C6: `MediaType` comparison is by weight only: two explicit weights
compare numerically, an explicit weight beats an absent one, two absent
weights are equal, and the result never depends on the mime values. -/
theorem c6_partialCmp_by_weight (a b : MediaType) :
    (∀ l r, a.weight = some l → b.weight = some r →
      ((a.partialCmp b = some Ordering.lt ↔ l < r) ∧
       (a.partialCmp b = some Ordering.eq ↔ l = r) ∧
       (a.partialCmp b = some Ordering.gt ↔ r < l))) ∧
    (a.weight.isSome = true → b.weight = none → a.partialCmp b = some Ordering.gt) ∧
    (a.weight = none → b.weight.isSome = true → a.partialCmp b = some Ordering.lt) ∧
    (a.weight = none → b.weight = none → a.partialCmp b = some Ordering.eq) ∧
    (∀ m₁ m₂ : Mime, MediaType.partialCmp ⟨m₁, a.weight⟩ ⟨m₂, b.weight⟩ = a.partialCmp b) := by
  refine ⟨?_, ?_, ?_, ?_, ?_⟩
  · intro l r hl hr
    simp only [MediaType.partialCmp, hl, hr, Option.some.injEq]
    split_ifs with h1 h2
    · exact ⟨by simp [h1], by simp [ne_of_lt h1], by simp [lt_asymm h1]⟩
    · exact ⟨by simp [h2, lt_irrefl], by simp [h2], by simp [h2, lt_irrefl]⟩
    · have h3 : r < l := lt_of_le_of_ne (not_lt.mp h1) (Ne.symm h2)
      exact ⟨by simp [h1], by simp [h2], by simp [h3]⟩
  · intro hs hbn
    obtain ⟨wa, ha⟩ := Option.isSome_iff_exists.mp hs
    simp [MediaType.partialCmp, ha, hbn]
  · intro han hs
    obtain ⟨wb, hb⟩ := Option.isSome_iff_exists.mp hs
    simp [MediaType.partialCmp, han, hb]
  · intro han hbn
    simp [MediaType.partialCmp, han, hbn]
  · intro m₁ m₂
    rfl

/-- Witness for C6 at concrete inputs. -/
theorem c6_witness :
    MediaType.partialCmp ⟨textHtmlMime, some (Rat.divInt 1 2)⟩
        ⟨⟨"application".data, "json".data⟩, none⟩ = some Ordering.gt ∧
    MediaType.partialCmp ⟨textHtmlMime, some (Rat.divInt 1 2)⟩
        ⟨⟨"application".data, "json".data⟩, some (Rat.divInt 9 10)⟩ = some Ordering.lt :=
  ⟨(c6_partialCmp_by_weight _ _).2.1 rfl rfl,
   ((c6_partialCmp_by_weight ⟨textHtmlMime, some (Rat.divInt 1 2)⟩
      ⟨⟨"application".data, "json".data⟩, some (Rat.divInt 9 10)⟩).1
        (Rat.divInt 1 2) (Rat.divInt 9 10) rfl rfl).1.mpr (by decide)⟩

/-! ## C3: negotiation returns the first stored entry that is available -/

/-- C3: `negotiate` scans `types` in stored order and returns the mime of
the first entry whose mime is in `available`, irrespective of the wildcard. -/
theorem c3_first_match (a : Accept) (avail : List Mime) (i : ℕ)
    (h : i < a.types.length) (hmem : (a.types.get ⟨i, h⟩).mime ∈ avail)
    (hfirst : ∀ j (hj : j < a.types.length), j < i → (a.types.get ⟨j, hj⟩).mime ∉ avail) :
    a.negotiate avail = Except.ok (a.types.get ⟨i, h⟩).mime := by
  have hfind := find?_eq_get_of_first (fun mt => avail.contains mt.mime) a.types i h
    (by simpa [contains_iff_mem] using hmem)
    (fun j hj hji => by simpa [contains_iff_mem] using hfirst j hj hji)
  unfold Accept.negotiate
  rw [hfind]

/-- Witness for C3: the spec's example.  The `Accept` parsed from
`"application/json, text/html;q=0.9, text/plain;q=0.8, */*;q=0.7"` (see
`c1_no_cascade` for the stored order) negotiated against
`{text/html, application/json}` yields `text/html`. -/
theorem c3_witness :
    (Accept.mk (some ⟨⟨starChars, starChars⟩, some (Rat.divInt 7 10)⟩)
        [⟨⟨"text".data, "html".data⟩, some (Rat.divInt 9 10)⟩,
         ⟨⟨"text".data, "plain".data⟩, some (Rat.divInt 8 10)⟩,
         ⟨⟨"application".data, "json".data⟩, none⟩]).negotiate
      [textHtmlMime, ⟨"application".data, "json".data⟩] = Except.ok textHtmlMime :=
  c3_first_match _ _ 0 (by decide) (by decide) (by decide)

/-! ## C4: negotiation failure and wildcard fallback -/

/-- C4: `negotiate` returns the 406 error exactly when no entry of `types`
is available and (no wildcard is present or `available` is empty); when no
entry matches but a wildcard is present and `available` is non-empty, it
returns `Ok` of some member of `available`. -/
theorem c4_not_acceptable_iff (a : Accept) (avail : List Mime) :
    (a.negotiate avail = Except.error StatusCode.notAcceptable ↔
      ((∀ mt ∈ a.types, mt.mime ∉ avail) ∧ (a.wildcard = none ∨ avail = []))) ∧
    ((∀ mt ∈ a.types, mt.mime ∉ avail) → a.wildcard.isSome = true → avail ≠ [] →
      ∃ m ∈ avail, a.negotiate avail = Except.ok m) := by
  cases hfind : a.types.find? (fun mt => avail.contains mt.mime) with
  | some mt =>
    have hmem : mt.mime ∈ avail := by
      simpa [contains_iff_mem] using List.find?_some hfind
    have himp : ¬(∀ mt' ∈ a.types, mt'.mime ∉ avail) :=
      fun hall => hall mt (List.mem_of_find?_eq_some hfind) hmem
    constructor
    · simp only [Accept.negotiate, hfind]
      exact ⟨fun hc => absurd hc (by simp), fun hc => absurd hc.1 himp⟩
    · exact fun hall => absurd hall himp
  | none =>
    have hall : ∀ mt ∈ a.types, mt.mime ∉ avail := fun mt hmt hmem =>
      (List.find?_eq_none.mp hfind mt hmt) ((contains_iff_mem _ _).mpr hmem)
    cases hw : a.wildcard with
    | none =>
      have hneg : a.negotiate avail = Except.error StatusCode.notAcceptable := by
        unfold Accept.negotiate
        rw [hfind, hw]
      constructor
      · rw [hneg]
        exact ⟨fun _ => ⟨hall, Or.inl rfl⟩, fun _ => rfl⟩
      · intro _ hs
        simp at hs
    | some w =>
      cases avail with
      | nil =>
        have hneg : a.negotiate [] = Except.error StatusCode.notAcceptable := by
          unfold Accept.negotiate
          rw [hfind, hw]
          rfl
        constructor
        · rw [hneg]
          exact ⟨fun _ => ⟨hall, Or.inr rfl⟩, fun _ => rfl⟩
        · intro _ _ hne
          exact absurd rfl hne
      | cons m rest =>
        by_cases hth : (m :: rest).contains textHtmlMime = true
        · have hneg : a.negotiate (m :: rest) = Except.ok textHtmlMime := by
            unfold Accept.negotiate
            rw [hfind, hw, if_pos hth]
          refine ⟨?_, ?_⟩
          · rw [hneg]
            constructor
            · intro hc
              exact absurd hc (by simp)
            · rintro ⟨-, hc | hc⟩
              · exact absurd hc (by simp)
              · exact absurd hc (by simp)
          · intro _ _ _
            exact ⟨textHtmlMime, (contains_iff_mem _ _).mp hth, hneg⟩
        · have hneg : a.negotiate (m :: rest) = Except.ok m := by
            unfold Accept.negotiate
            rw [hfind, hw, if_neg hth]
          refine ⟨?_, ?_⟩
          · rw [hneg]
            constructor
            · intro hc
              exact absurd hc (by simp)
            · rintro ⟨-, hc | hc⟩
              · exact absurd hc (by simp)
              · exact absurd hc (by simp)
          · intro _ _ _
            exact ⟨m, List.mem_cons_self m rest, hneg⟩

/-- Witness for C4: with the example `Accept` (wildcard present) and
`available = {application/xml}` only, negotiation falls back to
`application/xml`; with no wildcard it fails with 406. -/
theorem c4_witness :
    ((Accept.mk (some ⟨⟨starChars, starChars⟩, some (Rat.divInt 7 10)⟩)
        [⟨⟨"text".data, "html".data⟩, some (Rat.divInt 9 10)⟩]).negotiate
      [⟨"application".data, "xml".data⟩] = Except.ok ⟨"application".data, "xml".data⟩) ∧
    ((Accept.mk none [⟨⟨"text".data, "html".data⟩, some (Rat.divInt 9 10)⟩]).negotiate
      [⟨"application".data, "xml".data⟩] = Except.error StatusCode.notAcceptable) := by
  constructor
  · obtain ⟨m, hm, hres⟩ :=
      (c4_not_acceptable_iff
        (Accept.mk (some ⟨⟨starChars, starChars⟩, some (Rat.divInt 7 10)⟩)
          [⟨⟨"text".data, "html".data⟩, some (Rat.divInt 9 10)⟩])
        [⟨"application".data, "xml".data⟩]).2
        (by decide) rfl (by decide)
    have : m = ⟨"application".data, "xml".data⟩ := by
      simpa using hm
    rwa [this] at hres
  · exact (c4_not_acceptable_iff
      (Accept.mk none [⟨⟨"text".data, "html".data⟩, some (Rat.divInt 9 10)⟩])
      [⟨"application".data, "xml".data⟩]).1.mpr ⟨by decide, Or.inl rfl⟩

/-! ## C10: the implicit `text/html` fallback preference -/

/-- C10: when no entry of `types` is available but a wildcard is present
and `text/html` is available, `negotiate` returns exactly `text/html`,
before the arbitrary-member fallback is consulted. -/
theorem c10_text_html_fallback (a : Accept) (avail : List Mime)
    (hno : ∀ mt ∈ a.types, mt.mime ∉ avail) (hw : a.wildcard.isSome = true)
    (hhtml : textHtmlMime ∈ avail) :
    a.negotiate avail = Except.ok textHtmlMime := by
  have hfind : a.types.find? (fun mt => avail.contains mt.mime) = none :=
    List.find?_eq_none.mpr (fun mt hmt => by
      simpa [contains_iff_mem] using hno mt hmt)
  obtain ⟨w, hwv⟩ := Option.isSome_iff_exists.mp hw
  simp only [Accept.negotiate, hfind, hwv]
  rw [if_pos ((contains_iff_mem _ _).mpr hhtml)]

/-- Witness for C10: `application/json`-only preferences with a wildcard,
available `{application/xml, text/html}`: `text/html` wins over the
first-member fallback `application/xml`. -/
theorem c10_witness :
    (Accept.mk (some ⟨⟨starChars, starChars⟩, some (Rat.divInt 7 10)⟩)
        [⟨⟨"application".data, "json".data⟩, none⟩]).negotiate
      [⟨"application".data, "xml".data⟩, textHtmlMime] = Except.ok textHtmlMime :=
  c10_text_html_fallback _ _ (by decide) rfl (by decide)

/-! ## C5 and C7: `MediaType` parsing -/

theorem trimChars_qe_append (v : List Char) :
    trimChars ("q=".data ++ v) = "q=".data ++ trimRightChars v := by
  rw [trimChars, trimRightChars_append]
  by_cases h0 : trimRightChars v = []
  · rw [if_pos h0, h0]
    rfl
  · rw [if_neg h0]
    exact trimLeftChars_cons_of_not_ws _ (by decide)

/-- A MediaType parse only consumes the first two chunks. -/
theorem fromParts_first_two (a b : List Char) (t : List (List Char)) :
    MediaType.fromParts (a :: b :: t) = MediaType.fromParts [a, b] := by
  unfold MediaType.fromParts
  simp only [List.headD_cons, List.getElem?_cons_succ, List.getElem?_cons_zero]

/-- A second chunk that does not start with `q=` is ignored entirely. -/
theorem fromParts_second_not_q (a b : List Char)
    (hq : stripQ (trimChars b) = none) :
    MediaType.fromParts [a, b] = MediaType.fromParts [a] := by
  unfold MediaType.fromParts
  simp only [List.headD_cons, List.getElem?_cons_succ, List.getElem?_cons_zero,
    List.getElem?_nil, hq]

/-- Evaluation of `MediaType.fromParts` on a two-chunk list whose first
chunk is a valid mime and whose second is a `q=`-segment. -/
theorem fromParts_two_eval (p1 p2 : List Char) (m : Mime) (v2 : List Char)
    (hm : mimeParse (trimChars p1) = some m)
    (hs : stripQ (trimChars p2) = some v2) :
    MediaType.fromParts [p1, p2] =
      match parseDecimal (trimChars v2) with
      | none => Except.error (Error.parseWeight v2)
      | some w =>
        if 0 ≤ w ∧ w ≤ 1 then Except.ok ⟨m, some w⟩
        else Except.error (Error.weightRange w) := by
  unfold MediaType.fromParts
  simp only [List.headD_cons, List.getElem?_cons_succ, List.getElem?_cons_zero, hm, hs]

/-- C5: weight parsing and validation.  For any weight chunk `v` (free of
`';'`): if the (trimmed) text parses as a number `w` then a `w` within
`[0, 1]` yields `weight = some w` and a `w` outside it yields the
`WeightRange` error carrying `w`; if it does not parse as a number, the
result is the `ParseWeight` error carrying the offending substring (the
text after `q=` in the trimmed segment). -/
theorem c5_weight_parse (v : List Char) (hv : ';' ∉ v) :
    (∀ w : ℚ, parseDecimal (trimChars v) = some w →
      ((0 ≤ w ∧ w ≤ 1 →
        MediaType.fromStr ("type/subtype;q=".data ++ v) =
          Except.ok ⟨⟨"type".data, "subtype".data⟩, some w⟩) ∧
       (¬(0 ≤ w ∧ w ≤ 1) →
        MediaType.fromStr ("type/subtype;q=".data ++ v) =
          Except.error (Error.weightRange w)))) ∧
    (parseDecimal (trimChars v) = none →
      MediaType.fromStr ("type/subtype;q=".data ++ v) =
        Except.error (Error.parseWeight (trimRightChars v))) := by
  have hnosemi : ';' ∉ "q=".data ++ v := by
    intro hmem
    rcases List.mem_append.mp hmem with h | h
    · revert h; decide
    · exact hv h
  have hsplit : splitOnChar ';' ("type/subtype;q=".data ++ v) =
      ["type/subtype".data, "q=".data ++ v] := by
    have h1 : ("type/subtype;q=".data ++ v : List Char) =
        "type/subtype".data ++ ';' :: ("q=".data ++ v) := rfl
    rw [h1, splitOnChar_append_sep _ (by decide), splitOnChar_of_not_mem hnosemi]
  have hstrip : stripQ (trimChars ("q=".data ++ v)) = some (trimRightChars v) := by
    rw [trimChars_qe_append]
    rfl
  have hbase : MediaType.fromStr ("type/subtype;q=".data ++ v) =
      MediaType.fromParts ["type/subtype".data, "q=".data ++ v] := by
    rw [MediaType.fromStr, hsplit]
  have heval := fromParts_two_eval "type/subtype".data ("q=".data ++ v)
    ⟨"type".data, "subtype".data⟩ (trimRightChars v) rfl hstrip
  rw [trimChars_trimRight] at heval
  refine ⟨fun w hw => ⟨fun hr => ?_, fun hr => ?_⟩, fun hn => ?_⟩
  · rw [hbase, heval, hw]
    simp [hr]
  · rw [hbase, heval, hw]
    simp [hr]
  · rw [hbase, heval, hn]

/-- Witness for C5: a valid weight, an out-of-range weight and a
non-numeric weight, matching the crate's `media_type.rs` tests. -/
theorem c5_witness :
    MediaType.fromStr "type/subtype;q=0.9".data =
      Except.ok ⟨⟨"type".data, "subtype".data⟩, some (Rat.divInt 9 10)⟩ ∧
    MediaType.fromStr "type/subtype;q=1.5".data =
      Except.error (Error.weightRange (Rat.divInt 3 2)) ∧
    MediaType.fromStr "type/subtype;q=abcd".data =
      Except.error (Error.parseWeight "abcd".data) :=
  ⟨((c5_weight_parse "0.9".data (by decide)).1 (Rat.divInt 9 10) (by decide)).1 (by decide),
   ((c5_weight_parse "1.5".data (by decide)).1 (Rat.divInt 3 2) (by decide)).2 (by decide),
   (c5_weight_parse "abcd".data (by decide)).2 (by decide)⟩

/-- C7: the parse result depends only on the first `';'`-chunk and on the
second one; moreover a second chunk that (after trimming) does not start
with the literal `q=` makes parsing behave exactly as if the chunk were
absent (weight `none`, no error). -/
theorem c7_segments (a b : List Char) (t : List (List Char))
    (ha : ';' ∉ a) (hb : ';' ∉ b) :
    MediaType.fromStr (joinSep [';'] (a :: b :: t)) =
      MediaType.fromStr (joinSep [';'] [a, b]) ∧
    (stripQ (trimChars b) = none →
      MediaType.fromStr (a ++ ';' :: b) = MediaType.fromStr a) := by
  have hjoin2 : joinSep [';'] [a, b] = a ++ ';' :: b := by
    show a ++ [';'] ++ b = a ++ ';' :: b
    rw [List.append_assoc]
    rfl
  have hsplit2 : splitOnChar ';' (joinSep [';'] [a, b]) = [a, b] := by
    rw [hjoin2, splitOnChar_append_sep _ ha, splitOnChar_of_not_mem hb]
  constructor
  · cases t with
    | nil => rfl
    | cons u us =>
      have hjoin : joinSep [';'] (a :: b :: u :: us) =
          a ++ ';' :: (b ++ ';' :: joinSep [';'] (u :: us)) := by
        show a ++ [';'] ++ (b ++ [';'] ++ joinSep [';'] (u :: us)) = _
        rw [List.append_assoc a, List.append_assoc b]
        rfl
      have hsplit1 : splitOnChar ';' (joinSep [';'] (a :: b :: u :: us)) =
          a :: b :: splitOnChar ';' (joinSep [';'] (u :: us)) := by
        rw [hjoin, splitOnChar_append_sep _ ha, splitOnChar_append_sep _ hb]
      rw [MediaType.fromStr, MediaType.fromStr, hsplit1, hsplit2]
      exact fromParts_first_two a b _
  · intro hq
    rw [MediaType.fromStr, MediaType.fromStr,
        splitOnChar_append_sep _ ha, splitOnChar_of_not_mem hb,
        splitOnChar_of_not_mem ha]
    exact fromParts_second_not_q a b hq

/-- Witness for C7: a third chunk is ignored, and a non-`q=` second chunk
yields the same result as no second chunk at all. -/
theorem c7_witness :
    MediaType.fromStr "text/html;q=0.5;charset=utf-8".data =
      MediaType.fromStr "text/html;q=0.5".data ∧
    MediaType.fromStr "text/html;charset=utf-8".data =
      MediaType.fromStr "text/html".data :=
  ⟨(c7_segments "text/html".data "q=0.5".data ["charset=utf-8".data]
      (by decide) (by decide)).1,
   (c7_segments "text/html".data "charset=utf-8".data []
      (by decide) (by decide)).2 (by decide)⟩

/-! ## C8: wildcard classification invariant -/

theorem getLast?_cons_or {α : Type} (x : α) (l : List α) :
    (x :: l).getLast? = l.getLast?.or (some x) := by
  rw [List.getLast?_cons]
  cases l.getLast? <;> rfl

theorem scanStep_star (acc : Option MediaType × List MediaType) (mt : MediaType)
    (h : mt.mime.type_ = starChars) : scanStep acc mt = (some mt, acc.2) := by
  unfold scanStep
  rw [if_pos h]

theorem scanStep_not_star (acc : Option MediaType × List MediaType) (mt : MediaType)
    (h : ¬mt.mime.type_ = starChars) : scanStep acc mt = (acc.1, acc.2 ++ [mt]) := by
  unfold scanStep
  rw [if_neg h]

/-- The wildcard slot after the scan holds the last wildcard-typed entry
(falling back to the initial slot value). -/
theorem foldl_scanStep_fst (l : List MediaType) (w0 : Option MediaType)
    (ts0 : List MediaType) :
    (l.foldl scanStep (w0, ts0)).1 =
      ((l.filter (fun mt => decide (mt.mime.type_ = starChars))).getLast?).or w0 := by
  induction l generalizing w0 ts0 with
  | nil => simp
  | cons x xs ih =>
    by_cases hx : x.mime.type_ = starChars
    · rw [List.foldl_cons, scanStep_star _ _ hx, ih, List.filter_cons,
          if_pos (by simpa using hx), getLast?_cons_or, Option.or_assoc]
      rfl
    · rw [List.foldl_cons, scanStep_not_star _ _ hx, ih, List.filter_cons,
          if_neg (by simpa using hx)]

/-- The types list after the scan is the initial list extended by the
non-wildcard entries in order. -/
theorem foldl_scanStep_snd (l : List MediaType) (w0 : Option MediaType)
    (ts0 : List MediaType) :
    (l.foldl scanStep (w0, ts0)).2 =
      ts0 ++ l.filter (fun mt => !decide (mt.mime.type_ = starChars)) := by
  induction l generalizing w0 ts0 with
  | nil => simp
  | cons x xs ih =>
    by_cases hx : x.mime.type_ = starChars
    · rw [List.foldl_cons, scanStep_star _ _ hx, ih, List.filter_cons,
          if_neg (by simpa using hx)]
    · rw [List.foldl_cons, scanStep_not_star _ _ hx, ih, List.filter_cons,
          if_pos (by simpa using hx), List.append_assoc]
      rfl

theorem mem_insertDesc (x y : MediaType) (l : List MediaType) :
    x ∈ insertDesc y l ↔ x = y ∨ x ∈ l := by
  induction l with
  | nil => simp [insertDesc]
  | cons z zs ih =>
    unfold insertDesc
    split
    · simp [List.mem_cons]
    · simp [List.mem_cons, ih]
      tauto

theorem mem_sortTypes (x : MediaType) (l : List MediaType) :
    x ∈ sortTypes l ↔ x ∈ l := by
  suffices h : ∀ acc, (x ∈ l.foldl (fun acc y => insertDesc y acc) acc ↔ x ∈ acc ∨ x ∈ l) by
    simpa [sortTypes] using h []
  induction l with
  | nil => simp
  | cons z zs ih =>
    intro acc
    rw [List.foldl_cons, ih, mem_insertDesc]
    simp [List.mem_cons]
    tauto

/-- C8: after a successful parse no `types` entry is wildcard-typed, the
`wildcard` (when present) always is, and it is exactly the last
wildcard-typed entry of the left-to-right parsed segment list. -/
theorem c8_wildcard_invariant (s : List Char) (acc : Accept)
    (entries : List MediaType)
    (hacc : Accept.fromStr s = Except.ok acc)
    (hentries : parseParts (splitOnChar ',' s) = Except.ok entries) :
    (∀ mt ∈ acc.types, mt.mime.type_ ≠ starChars) ∧
    (∀ w, acc.wildcard = some w → w.mime.type_ = starChars) ∧
    acc.wildcard =
      (entries.filter (fun mt => decide (mt.mime.type_ = starChars))).getLast? := by
  have hacc' : Accept.mk ((entries.foldl scanStep (none, [])).1)
      (sortTypes ((entries.foldl scanStep (none, [])).2)) = acc := by
    have h := hacc
    unfold Accept.fromStr at h
    rw [hentries] at h
    exact Except.ok.inj h
  have hw0 : acc.wildcard = (entries.foldl scanStep (none, [])).1 := by
    rw [← hacc']
  have ht0 : acc.types = sortTypes ((entries.foldl scanStep (none, [])).2) := by
    rw [← hacc']
  refine ⟨?_, ?_, ?_⟩
  · intro mt hmt
    rw [ht0, foldl_scanStep_snd, List.nil_append, mem_sortTypes] at hmt
    have hp := (List.mem_filter.mp hmt).2
    simpa using hp
  · intro w hww
    rw [hw0, foldl_scanStep_fst, Option.or_none] at hww
    obtain ⟨ys, hys⟩ := List.getLast?_eq_some_iff.mp hww
    have hmem : w ∈ entries.filter (fun mt => decide (mt.mime.type_ = starChars)) := by
      rw [hys]
      simp
    simpa using (List.mem_filter.mp hmem).2
  · rw [hw0, foldl_scanStep_fst, Option.or_none]

/-- Witness for C8: a header with two wildcard segments; the later one
(`*/*;q=0.6`) wins. -/
theorem c8_witness :
    (Accept.mk (some ⟨⟨starChars, starChars⟩, some (Rat.divInt 3 5)⟩)
        [⟨textHtmlMime, none⟩]).wildcard =
      (([⟨textHtmlMime, none⟩,
         ⟨⟨starChars, starChars⟩, some (Rat.divInt 1 2)⟩,
         ⟨⟨starChars, starChars⟩, some (Rat.divInt 3 5)⟩] : List MediaType).filter
        (fun mt => decide (mt.mime.type_ = starChars))).getLast? :=
  (c8_wildcard_invariant "text/html, */*;q=0.5, */*;q=0.6".data _ _ rfl rfl).2.2

/-! ## Digit strings and character classes (towards the C9 round-trip) -/

theorem isWhitespace_cases {c : Char} (h : c.isWhitespace = true) :
    c = ' ' ∨ c = '\t' ∨ c = '\r' ∨ c = '\n' := by
  have h2 : ((c = ' ' ∨ c = '\t') ∨ c = '\r') ∨ c = '\n' := by
    simpa [Char.isWhitespace] using h
  tauto

theorem token_not_ws {c : Char} (h : isTokenChar c = true) :
    ¬c.isWhitespace = true := by
  intro hw
  rcases isWhitespace_cases hw with rfl | rfl | rfl | rfl <;> exact absurd h (by decide)

theorem digit_not_ws {c : Char} (h : c.isDigit = true) :
    ¬c.isWhitespace = true := by
  intro hw
  rcases isWhitespace_cases hw with rfl | rfl | rfl | rfl <;> exact absurd h (by decide)

theorem token_ne_special {c : Char} (h : isTokenChar c = true) :
    c ≠ '/' ∧ c ≠ ';' ∧ c ≠ ',' := by
  refine ⟨?_, ?_, ?_⟩ <;> rintro rfl <;> exact absurd h (by decide)

theorem digit_ne_special {c : Char} (h : c.isDigit = true) :
    c ≠ '+' ∧ c ≠ '-' ∧ c ≠ ',' ∧ c ≠ ';' ∧ c ≠ '.' := by
  refine ⟨?_, ?_, ?_, ?_, ?_⟩ <;> rintro rfl <;> exact absurd h (by decide)

theorem takeWhile_all_append (p : Char → Bool) (a b : List Char)
    (h : ∀ c ∈ a, p c = true) :
    (a ++ b).takeWhile p = a ++ b.takeWhile p := by
  induction a with
  | nil => rfl
  | cons x xs ih =>
    rw [List.cons_append, List.takeWhile_cons, if_pos (h x (by simp)),
      ih (fun c hc => h c (by simp [hc]))]
    rfl

theorem dropWhile_all_append (p : Char → Bool) (a b : List Char)
    (h : ∀ c ∈ a, p c = true) :
    (a ++ b).dropWhile p = b.dropWhile p := by
  induction a with
  | nil => rfl
  | cons x xs ih =>
    rw [List.cons_append, List.dropWhile_cons, if_pos (h x (by simp)),
      ih (fun c hc => h c (by simp [hc]))]

theorem takeWhile_all (p : Char → Bool) (a : List Char)
    (h : ∀ c ∈ a, p c = true) : a.takeWhile p = a := by
  have := takeWhile_all_append p a [] h
  simpa using this

theorem dropWhile_all (p : Char → Bool) (a : List Char)
    (h : ∀ c ∈ a, p c = true) : a.dropWhile p = [] := by
  have := dropWhile_all_append p a [] h
  simpa using this

theorem digitsVal_general (b : List Char) (acc : ℕ) :
    b.foldl (fun a c => 10 * a + (c.toNat - 48)) acc =
      acc * pow10 b.length + digitsVal b := by
  induction b generalizing acc with
  | nil => simp [digitsVal, pow10]
  | cons c cs ih =>
    rw [List.foldl_cons, ih]
    have h2 : digitsVal (c :: cs) =
        (10 * 0 + (c.toNat - 48)) * pow10 cs.length + digitsVal cs := by
      rw [digitsVal, List.foldl_cons, ih]
    rw [h2]
    have h3 : pow10 (c :: cs).length = 10 * pow10 cs.length := rfl
    rw [h3]
    ring

theorem digitsVal_append (a b : List Char) :
    digitsVal (a ++ b) = digitsVal a * pow10 b.length + digitsVal b := by
  rw [digitsVal, List.foldl_append]
  exact digitsVal_general b (digitsVal a)

theorem digitsVal_replicate_zero (j : ℕ) (b : List Char) :
    digitsVal (List.replicate j '0' ++ b) = digitsVal b := by
  induction j with
  | zero => rfl
  | succ j ih =>
    rw [List.replicate_succ, List.cons_append, digitsVal, List.foldl_cons]
    exact ih

theorem digitChar10_toNat {n : ℕ} (h : n < 10) : (digitChar10 n).toNat = 48 + n := by
  interval_cases n <;> decide

theorem digitChar10_isDigit {n : ℕ} (h : n < 10) : (digitChar10 n).isDigit = true := by
  interval_cases n <;> decide

theorem natToCharsAux_spec : ∀ fuel n : ℕ, n < fuel →
    digitsVal (natToCharsAux fuel n) = n ∧
    (∀ c ∈ natToCharsAux fuel n, c.isDigit = true) ∧
    natToCharsAux fuel n ≠ [] := by
  intro fuel
  induction fuel with
  | zero => intro n h; omega
  | succ fuel ih =>
    intro n h
    simp only [natToCharsAux]
    by_cases h10 : n < 10
    · rw [if_pos h10]
      refine ⟨?_, ?_, by simp⟩
      · simp [digitsVal, digitChar10_toNat h10]
      · intro c hc
        simp only [List.mem_singleton] at hc
        subst hc
        exact digitChar10_isDigit h10
    · rw [if_neg h10]
      have hdiv : n / 10 < fuel := by
        have := Nat.div_lt_self (show 0 < n by omega) (show 1 < 10 by omega)
        omega
      obtain ⟨ih1, ih2, ih3⟩ := ih (n / 10) hdiv
      refine ⟨?_, ?_, by simp⟩
      · rw [digitsVal_append, ih1]
        have hm : digitsVal [digitChar10 (n % 10)] = n % 10 := by
          simp [digitsVal, digitChar10_toNat (Nat.mod_lt n (by omega))]
        rw [hm]
        have hp : pow10 [digitChar10 (n % 10)].length = 10 := rfl
        rw [hp]
        omega
      · intro c hc
        rcases List.mem_append.mp hc with hcc | hcc
        · exact ih2 c hcc
        · simp only [List.mem_singleton] at hcc
          subst hcc
          exact digitChar10_isDigit (Nat.mod_lt n (by omega))

theorem natToChars_val (n : ℕ) : digitsVal (natToChars n) = n :=
  (natToCharsAux_spec (n + 1) n (by omega)).1

theorem natToChars_digits (n : ℕ) : ∀ c ∈ natToChars n, c.isDigit = true :=
  (natToCharsAux_spec (n + 1) n (by omega)).2.1

theorem natToChars_ne_nil (n : ℕ) : natToChars n ≠ [] :=
  (natToCharsAux_spec (n + 1) n (by omega)).2.2

theorem pow10_eq_pow (k : ℕ) : pow10 k = 10 ^ k := by
  induction k with
  | zero => rfl
  | succ k ih =>
    rw [show pow10 (k + 1) = 10 * pow10 k from rfl, ih, pow_succ]
    ring

theorem pow10_pos (k : ℕ) : 0 < pow10 k := by
  rw [pow10_eq_pow]
  positivity

theorem natToCharsAux_length : ∀ fuel n m : ℕ, n < fuel → n < pow10 m → 1 ≤ m →
    (natToCharsAux fuel n).length ≤ m := by
  intro fuel
  induction fuel with
  | zero => intro n m h; omega
  | succ fuel ih =>
    intro n m hf hp hm
    simp only [natToCharsAux]
    by_cases h10 : n < 10
    · rw [if_pos h10]
      simpa using hm
    · rw [if_neg h10]
      cases m with
      | zero => omega
      | succ m' =>
        have hm' : 1 ≤ m' := by
          by_contra hc
          have hz : m' = 0 := by omega
          subst hz
          have h1 : pow10 (0 + 1) = 10 := rfl
          omega
        have hdiv : n / 10 < fuel := by
          have := Nat.div_lt_self (show 0 < n by omega) (show 1 < 10 by omega)
          omega
        have hp' : n / 10 < pow10 m' := by
          rw [Nat.div_lt_iff_lt_mul (show 0 < 10 by omega)]
          have h1 : pow10 (m' + 1) = 10 * pow10 m' := rfl
          omega
        have hlen := ih (n / 10) m' hdiv hp' hm'
        rw [List.length_append]
        simp only [List.length_singleton]
        omega

theorem natToChars_length_le {n m : ℕ} (h : n < pow10 m) (hm : 1 ≤ m) :
    (natToChars n).length ≤ m :=
  natToCharsAux_length (n + 1) n m (by omega) h hm

theorem padZeros_length {k : ℕ} {ds : List Char} (h : ds.length ≤ k) :
    (padZeros k ds).length = k := by
  simp only [padZeros, List.length_append, List.length_replicate]
  omega

theorem padZeros_val (k : ℕ) (ds : List Char) :
    digitsVal (padZeros k ds) = digitsVal ds :=
  digitsVal_replicate_zero _ _

theorem padZeros_digits (k : ℕ) (ds : List Char)
    (h : ∀ c ∈ ds, c.isDigit = true) :
    ∀ c ∈ padZeros k ds, c.isDigit = true := by
  intro c hc
  rcases List.mem_append.mp hc with hcc | hcc
  · rw [List.eq_of_mem_replicate hcc]
    decide
  · exact h c hcc

/-! ## Decimal-exact rationals and `decExp` -/

/-- A rational whose denominator divides a power of ten; exactly the values
the modelled float parser can produce. -/
def DecimalExact (w : ℚ) : Prop := ∃ k, w.den ∣ pow10 k

theorem dvd_pow10_shrink {d k : ℕ} (h : d ∣ pow10 k) : d ∣ pow10 d := by
  rw [pow10_eq_pow] at h ⊢
  have h2 : d ∣ 2 ^ k * 5 ^ k := by
    have h10 : (10 : ℕ) = 2 * 5 := rfl
    rwa [h10, mul_pow] at h
  obtain ⟨a, b, ha, hb, hab⟩ := exists_dvd_and_dvd_of_dvd_mul h2
  obtain ⟨i, hik, hai⟩ := (Nat.dvd_prime_pow Nat.prime_two).mp ha
  obtain ⟨j, hjk, hbj⟩ := (Nat.dvd_prime_pow Nat.prime_five).mp hb
  subst hai
  subst hbj
  subst hab
  have hi : i ≤ 2 ^ i * 5 ^ j := by
    have h1 : i < 2 ^ i := Nat.lt_two_pow i
    have h2' : 2 ^ i ≤ 2 ^ i * 5 ^ j := Nat.le_mul_of_pos_right _ (by positivity)
    omega
  have hj : j ≤ 2 ^ i * 5 ^ j := by
    have h1 : j < 2 ^ j := Nat.lt_two_pow j
    have h2' : 2 ^ j ≤ 5 ^ j := Nat.pow_le_pow_left (by omega) j
    have h3 : 5 ^ j ≤ 2 ^ i * 5 ^ j := Nat.le_mul_of_pos_left _ (by positivity)
    omega
  have hdvd : 2 ^ i * 5 ^ j ∣ 2 ^ (2 ^ i * 5 ^ j) * 5 ^ (2 ^ i * 5 ^ j) :=
    mul_dvd_mul (pow_dvd_pow 2 hi) (pow_dvd_pow 5 hj)
  have heq : 2 ^ (2 ^ i * 5 ^ j) * 5 ^ (2 ^ i * 5 ^ j) = 10 ^ (2 ^ i * 5 ^ j) := by
    rw [← mul_pow]
    norm_num
  rwa [heq] at hdvd

theorem decExpAux_dvd : ∀ fuel den k : ℕ,
    (∃ j, k ≤ j ∧ j < k + fuel ∧ den ∣ pow10 j) →
    den ∣ pow10 (decExpAux fuel den k) := by
  intro fuel
  induction fuel with
  | zero =>
    intro den k h
    obtain ⟨j, hj1, hj2, -⟩ := h
    omega
  | succ fuel ih =>
    intro den k h
    simp only [decExpAux]
    by_cases hk : pow10 k % den = 0
    · rw [if_pos hk]
      exact Nat.dvd_iff_mod_eq_zero.mpr hk
    · rw [if_neg hk]
      apply ih
      obtain ⟨j, hj1, hj2, hj3⟩ := h
      refine ⟨j, ?_, by omega, hj3⟩
      rcases Nat.eq_or_lt_of_le hj1 with rfl | hlt
      · exact absurd (Nat.dvd_iff_mod_eq_zero.mp hj3) hk
      · omega

theorem decExp_dvd {den : ℕ} (h : ∃ k, den ∣ pow10 k) :
    den ∣ pow10 (decExp den) := by
  obtain ⟨k, hk⟩ := h
  exact decExpAux_dvd (den + 1) den 0 ⟨den, by omega, by omega, dvd_pow10_shrink hk⟩

/-- The cross-multiplication identity behind rendering: scaling `w` by
`10 ^ k / den` and reading it back as `scaled / 10 ^ k` recovers `w`. -/
theorem divInt_scaled (w : ℚ) (h0 : 0 ≤ w) (k : ℕ) (hdvd : w.den ∣ pow10 k) :
    Rat.divInt ((w.num.toNat * (pow10 k / w.den) : ℕ) : ℤ) ((pow10 k : ℕ) : ℤ) = w := by
  have hden : ((w.den : ℕ) : ℤ) ≠ 0 := by exact_mod_cast w.den_nz
  have hpow : ((pow10 k : ℕ) : ℤ) ≠ 0 := by exact_mod_cast (pow10_pos k).ne'
  conv_rhs => rw [← Rat.num_divInt_den w]
  rw [Rat.divInt_eq_divInt hpow hden]
  have hn : w.num.toNat * (pow10 k / w.den) * w.den = w.num.toNat * pow10 k := by
    rw [mul_assoc, Nat.div_mul_cancel hdvd]
  have hnum : ((w.num.toNat : ℕ) : ℤ) = w.num :=
    Int.toNat_of_nonneg (Rat.num_nonneg.mpr h0)
  rw [← Nat.cast_mul, hn, Nat.cast_mul, hnum]

/-! ## Weight rendering parses back to the same rational -/

theorem parseMantissa_all_digits (l : List Char) (hne : l ≠ [])
    (hdig : ∀ c ∈ l, c.isDigit = true) :
    parseMantissa 1 l = some (applyExp ((digitsVal l : ℕ) : ℤ) 0 0) := by
  have hdrop : l.dropWhile Char.isDigit = [] := dropWhile_all _ _ hdig
  have htake : l.takeWhile Char.isDigit = l := takeWhile_all _ _ hdig
  simp only [parseMantissa, hdrop, htake, parseExpPart]
  rw [if_neg hne, one_mul]

theorem parseMantissa_digits_dot (ip fr : List Char) (hne : ip ≠ [])
    (hip : ∀ c ∈ ip, c.isDigit = true) (hfr : ∀ c ∈ fr, c.isDigit = true) :
    parseMantissa 1 (ip ++ '.' :: fr) =
      some (applyExp ((digitsVal (ip ++ fr) : ℕ) : ℤ) fr.length 0) := by
  have hdrop : (ip ++ '.' :: fr).dropWhile Char.isDigit = '.' :: fr := by
    rw [dropWhile_all_append _ _ _ hip, List.dropWhile_cons, if_neg (by decide)]
  have htake : (ip ++ '.' :: fr).takeWhile Char.isDigit = ip := by
    rw [takeWhile_all_append _ _ _ hip, List.takeWhile_cons, if_neg (by decide),
      List.append_nil]
  have htakef : fr.takeWhile Char.isDigit = fr := takeWhile_all _ _ hfr
  have hdropf : fr.dropWhile Char.isDigit = [] := dropWhile_all _ _ hfr
  simp only [parseMantissa, hdrop, htake, htakef, hdropf, parseExpPart]
  rw [if_neg (by simp [hne]), one_mul]

theorem applyExp_zero (n : ℤ) : applyExp n 0 0 = Rat.divInt n 1 := by
  unfold applyExp
  rw [if_pos (by norm_num)]
  have h1 : ((0 : ℤ) - ((0 : ℕ) : ℤ)).toNat = 0 := by norm_num
  rw [h1]
  have h2 : pow10 0 = 1 := rfl
  rw [h2]
  norm_num

theorem applyExp_frac (n : ℤ) (k : ℕ) (hk : k ≠ 0) :
    applyExp n k 0 = Rat.divInt n ((pow10 k : ℕ) : ℤ) := by
  unfold applyExp
  rw [if_neg (by omega)]
  congr 2

theorem parseDecimal_weightToChars (w : ℚ) (h0 : 0 ≤ w) (hd : DecimalExact w) :
    parseDecimal (weightToChars w) = some w := by
  obtain ⟨k, hkdef⟩ : ∃ k, decExp w.den = k := ⟨_, rfl⟩
  have hdvd : w.den ∣ pow10 k := by
    rw [← hkdef]
    exact decExp_dvd hd
  by_cases hk0 : k = 0
  · subst hk0
    have hwc : weightToChars w = natToChars (w.num.toNat * (pow10 0 / w.den)) := by
      simp only [weightToChars, hkdef]
      rw [if_pos trivial]
    rw [hwc]
    have hdig := natToChars_digits (w.num.toNat * (pow10 0 / w.den))
    have hne := natToChars_ne_nil (w.num.toNat * (pow10 0 / w.den))
    obtain ⟨c, rest, hcr⟩ :
        ∃ c rest, natToChars (w.num.toNat * (pow10 0 / w.den)) = c :: rest := by
      cases hnc : natToChars (w.num.toNat * (pow10 0 / w.den)) with
      | nil => exact absurd hnc hne
      | cons c rest => exact ⟨c, rest, rfl⟩
    have hcd : c.isDigit = true := hdig c (by rw [hcr]; simp)
    have hps : parseDecimal (c :: rest) = parseMantissa 1 (c :: rest) := by
      unfold parseDecimal
      have hhd : (c :: rest).headD ' ' = c := rfl
      rw [hhd, if_neg (digit_ne_special hcd).1, if_neg (digit_ne_special hcd).2.1]
    rw [hcr, hps, ← hcr, parseMantissa_all_digits _ hne hdig, natToChars_val,
      applyExp_zero]
    exact congrArg some (divInt_scaled w h0 0 hdvd)
  · have hfr_lt : (w.num.toNat * (pow10 k / w.den)) % pow10 k < pow10 k :=
      Nat.mod_lt _ (pow10_pos k)
    have hfrlen : (natToChars ((w.num.toNat * (pow10 k / w.den)) % pow10 k)).length ≤ k :=
      natToChars_length_le hfr_lt (by omega)
    have hwc : weightToChars w =
        natToChars ((w.num.toNat * (pow10 k / w.den)) / pow10 k) ++
          '.' :: padZeros k (natToChars ((w.num.toNat * (pow10 k / w.den)) % pow10 k)) := by
      simp only [weightToChars, hkdef]
      rw [if_neg hk0]
    rw [hwc]
    have hipne := natToChars_ne_nil ((w.num.toNat * (pow10 k / w.den)) / pow10 k)
    have hipdig := natToChars_digits ((w.num.toNat * (pow10 k / w.den)) / pow10 k)
    have hfrdig := padZeros_digits k _
      (natToChars_digits ((w.num.toNat * (pow10 k / w.den)) % pow10 k))
    obtain ⟨c, rest, hcr⟩ :
        ∃ c rest, natToChars ((w.num.toNat * (pow10 k / w.den)) / pow10 k) = c :: rest := by
      cases hnc : natToChars ((w.num.toNat * (pow10 k / w.den)) / pow10 k) with
      | nil => exact absurd hnc hipne
      | cons c rest => exact ⟨c, rest, rfl⟩
    have hcd : c.isDigit = true := hipdig c (by rw [hcr]; simp)
    have hps : parseDecimal ((c :: rest) ++
        '.' :: padZeros k (natToChars ((w.num.toNat * (pow10 k / w.den)) % pow10 k))) =
        parseMantissa 1 ((c :: rest) ++
        '.' :: padZeros k (natToChars ((w.num.toNat * (pow10 k / w.den)) % pow10 k))) := by
      unfold parseDecimal
      have hhd : ((c :: rest) ++
          '.' :: padZeros k (natToChars ((w.num.toNat * (pow10 k / w.den)) % pow10 k))).headD ' ' =
          c := rfl
      rw [hhd, if_neg (digit_ne_special hcd).1, if_neg (digit_ne_special hcd).2.1]
    rw [hcr, hps, ← hcr, parseMantissa_digits_dot _ _ hipne hipdig hfrdig,
      digitsVal_append, padZeros_val, natToChars_val, natToChars_val,
      padZeros_length hfrlen,
      Nat.mul_comm (w.num.toNat * (pow10 k / w.den) / pow10 k) (pow10 k),
      Nat.div_add_mod, applyExp_frac _ _ hk0]
    exact congrArg some (divInt_scaled w h0 k hdvd)

/-! ## Validity invariants of parsed values -/

/-- What `mimeParse` guarantees about its output. -/
def ValidMime (m : Mime) : Prop :=
  m.type_ ≠ [] ∧ m.subtype ≠ [] ∧
    m.type_.all isTokenChar = true ∧ m.subtype.all isTokenChar = true

/-- What `MediaType.fromStr` guarantees about its output. -/
def ValidMT (mt : MediaType) : Prop :=
  ValidMime mt.mime ∧ ∀ w, mt.weight = some w → 0 ≤ w ∧ w ≤ 1 ∧ DecimalExact w

theorem mimeParse_valid {s : List Char} {m : Mime} (h : mimeParse s = some m) :
    ValidMime m := by
  unfold mimeParse at h
  split at h
  · split at h
    · rename_i hcond
      rw [Option.some.injEq] at h
      subst h
      exact hcond
    · exact absurd h (by simp)
  · exact absurd h (by simp)

theorem token_list_props {l : List Char} (hall : l.all isTokenChar = true) :
    '/' ∉ l ∧ ';' ∉ l ∧ ',' ∉ l ∧ ∀ c ∈ l, ¬c.isWhitespace = true := by
  rw [List.all_eq_true] at hall
  exact ⟨fun h => (token_ne_special (hall _ h)).1 rfl,
    fun h => (token_ne_special (hall _ h)).2.1 rfl,
    fun h => (token_ne_special (hall _ h)).2.2 rfl,
    fun c hc => token_not_ws (hall c hc)⟩

theorem mimeRender_roundtrip {m : Mime} (h : ValidMime m) :
    mimeParse (mimeRender m) = some m := by
  obtain ⟨h1, h2, h3, h4⟩ := h
  unfold mimeParse mimeRender
  rw [splitOnChar_append_sep _ (token_list_props h3).1,
    splitOnChar_of_not_mem (token_list_props h4).1]
  show (if m.type_ ≠ [] ∧ m.subtype ≠ [] ∧
      m.type_.all isTokenChar = true ∧ m.subtype.all isTokenChar = true
    then some ⟨m.type_, m.subtype⟩ else none) = some m
  rw [if_pos ⟨h1, h2, h3, h4⟩]

theorem mimeRender_no_semi {m : Mime} (h : ValidMime m) : ';' ∉ mimeRender m := by
  intro hc
  unfold mimeRender at hc
  rcases List.mem_append.mp hc with h' | h'
  · exact (token_list_props h.2.2.1).2.1 h'
  · rcases List.mem_cons.mp h' with h' | h'
    · exact absurd h' (by decide)
    · exact (token_list_props h.2.2.2).2.1 h'

theorem mimeRender_no_comma {m : Mime} (h : ValidMime m) : ',' ∉ mimeRender m := by
  intro hc
  unfold mimeRender at hc
  rcases List.mem_append.mp hc with h' | h'
  · exact (token_list_props h.2.2.1).2.2.1 h'
  · rcases List.mem_cons.mp h' with h' | h'
    · exact absurd h' (by decide)
    · exact (token_list_props h.2.2.2).2.2.1 h'

theorem mimeRender_no_ws {m : Mime} (h : ValidMime m) :
    ∀ c ∈ mimeRender m, ¬c.isWhitespace = true := by
  intro c hc
  unfold mimeRender at hc
  rcases List.mem_append.mp hc with h' | h'
  · exact (token_list_props h.2.2.1).2.2.2 c h'
  · rcases List.mem_cons.mp h' with rfl | h'
    · decide
    · exact (token_list_props h.2.2.2).2.2.2 c h'

theorem weightToChars_digits_dot (w : ℚ) :
    ∀ c ∈ weightToChars w, c.isDigit = true ∨ c = '.' := by
  intro c hc
  simp only [weightToChars] at hc
  by_cases hk : decExp w.den = 0
  · rw [if_pos hk] at hc
    exact Or.inl (natToChars_digits _ c hc)
  · rw [if_neg hk] at hc
    rcases List.mem_append.mp hc with h | h
    · exact Or.inl (natToChars_digits _ c h)
    · rcases List.mem_cons.mp h with rfl | h
      · exact Or.inr rfl
      · exact Or.inl (padZeros_digits _ _ (natToChars_digits _) c h)

/-- Per-entry round trip: rendering a valid `MediaType` and parsing it back
yields the same value. -/
theorem mt_render_roundtrip (mt : MediaType) (hv : ValidMT mt) :
    MediaType.fromStr (MediaType.render mt) = Except.ok mt := by
  obtain ⟨mm, mw⟩ := mt
  obtain ⟨hm, hw⟩ := hv
  have hmsemi : ';' ∉ mimeRender mm := mimeRender_no_semi hm
  have htrm : trimChars (mimeRender mm) = mimeRender mm :=
    trimChars_of_forall_not_ws (mimeRender_no_ws hm)
  cases mw with
  | none =>
    have hrender : MediaType.render ⟨mm, none⟩ = mimeRender mm := by
      unfold MediaType.render
      simp
    rw [hrender, MediaType.fromStr, splitOnChar_of_not_mem hmsemi]
    unfold MediaType.fromParts
    simp only [List.headD_cons, List.getElem?_cons_succ, List.getElem?_nil, htrm,
      mimeRender_roundtrip hm]
  | some w =>
    obtain ⟨h0, h1, hdx⟩ := hw w rfl
    have hwchars := weightToChars_digits_dot w
    have hwsemi : ';' ∉ 'q' :: '=' :: weightToChars w := by
      intro hc
      rcases List.mem_cons.mp hc with hc | hc
      · exact absurd hc (by decide)
      rcases List.mem_cons.mp hc with hc | hc
      · exact absurd hc (by decide)
      rcases hwchars ';' hc with hd | hd
      · exact absurd hd (by decide)
      · exact absurd hd (by decide)
    have hrender : MediaType.render ⟨mm, some w⟩ =
        mimeRender mm ++ ';' :: ('q' :: '=' :: weightToChars w) := rfl
    rw [hrender, MediaType.fromStr, splitOnChar_append_sep _ hmsemi,
      splitOnChar_of_not_mem hwsemi]
    have hqtrim : trimChars ('q' :: '=' :: weightToChars w) =
        'q' :: '=' :: weightToChars w := by
      apply trimChars_of_forall_not_ws
      intro c hc
      rcases List.mem_cons.mp hc with rfl | hc
      · decide
      rcases List.mem_cons.mp hc with rfl | hc
      · decide
      rcases hwchars c hc with hd | rfl
      · exact digit_not_ws hd
      · decide
    have hwtrim : trimChars (weightToChars w) = weightToChars w := by
      apply trimChars_of_forall_not_ws
      intro c hc
      rcases hwchars c hc with hd | rfl
      · exact digit_not_ws hd
      · decide
    have heval := fromParts_two_eval (mimeRender mm) ('q' :: '=' :: weightToChars w)
      mm (weightToChars w) (by rw [htrm]; exact mimeRender_roundtrip hm)
      (by rw [hqtrim]; rfl)
    rw [heval, hwtrim, parseDecimal_weightToChars w h0 hdx]
    show (if 0 ≤ w ∧ w ≤ 1 then (Except.ok ⟨mm, some w⟩ : Except Error MediaType)
      else Except.error (Error.weightRange w)) = Except.ok ⟨mm, some w⟩
    rw [if_pos ⟨h0, h1⟩]

/-! ## Every successfully parsed entry is valid -/

theorem applyExp_den_dvd (n : ℤ) (flen : ℕ) (e : ℤ) :
    DecimalExact (applyExp n flen e) := by
  unfold applyExp DecimalExact
  split
  · refine ⟨0, ?_⟩
    have h := Rat.den_dvd (n * ((pow10 (e - (flen : ℤ)).toNat : ℕ) : ℤ)) 1
    have h2 : (Rat.divInt (n * ((pow10 (e - (flen : ℤ)).toNat : ℕ) : ℤ)) 1).den ∣ 1 := by
      exact_mod_cast h
    simpa [pow10] using h2
  · refine ⟨((flen : ℤ) - e).toNat, ?_⟩
    have h := Rat.den_dvd n ((pow10 ((flen : ℤ) - e).toNat : ℕ) : ℤ)
    exact_mod_cast h

theorem parseMantissa_decimalExact {sgn : ℤ} {ds : List Char} {w : ℚ}
    (h : parseMantissa sgn ds = some w) : DecimalExact w := by
  unfold parseMantissa at h
  split at h
  · split at h
    · exact absurd h (by simp)
    · split at h
      · exact absurd h (by simp)
      · rw [Option.some.injEq] at h
        subst h
        exact applyExp_den_dvd _ _ _
  · split at h
    · exact absurd h (by simp)
    · split at h
      · exact absurd h (by simp)
      · rw [Option.some.injEq] at h
        subst h
        exact applyExp_den_dvd _ _ _

theorem parseDecimal_decimalExact {s : List Char} {w : ℚ}
    (h : parseDecimal s = some w) : DecimalExact w := by
  unfold parseDecimal at h
  split at h
  · exact parseMantissa_decimalExact h
  · split at h <;> exact parseMantissa_decimalExact h

theorem fromParts_ok_valid {parts : List (List Char)} {mt : MediaType}
    (h : MediaType.fromParts parts = Except.ok mt) : ValidMT mt := by
  unfold MediaType.fromParts at h
  split at h
  · exact absurd h (by simp)
  · rename_i m hm
    split at h
    · rw [Except.ok.injEq] at h
      subst h
      exact ⟨mimeParse_valid hm, fun w hw => by simp at hw⟩
    · split at h
      · rw [Except.ok.injEq] at h
        subst h
        exact ⟨mimeParse_valid hm, fun w hw => by simp at hw⟩
      · split at h
        · exact absurd h (by simp)
        · rename_i w' hpd
          split at h
          · rename_i hr
            rw [Except.ok.injEq] at h
            subst h
            refine ⟨mimeParse_valid hm, fun w hw => ?_⟩
            have hw' : w' = w := Option.some.inj hw
            subst hw'
            exact ⟨hr.1, hr.2, parseDecimal_decimalExact hpd⟩
          · exact absurd h (by simp)

theorem fromStr_ok_valid {s : List Char} {mt : MediaType}
    (h : MediaType.fromStr s = Except.ok mt) : ValidMT mt := by
  rw [MediaType.fromStr] at h
  exact fromParts_ok_valid h

theorem parseParts_ok_valid : ∀ {ps : List (List Char)} {entries : List MediaType},
    parseParts ps = Except.ok entries → ∀ mt ∈ entries, ValidMT mt := by
  intro ps
  induction ps with
  | nil =>
    intro entries h mt hmt
    rw [show parseParts [] = Except.ok [] from rfl, Except.ok.injEq] at h
    subst h
    simp at hmt
  | cons p ps ih =>
    intro entries h mt hmt
    simp only [parseParts] at h
    split at h
    · exact absurd h (by simp)
    · rename_i mt1 hmt1
      split at h
      · exact absurd h (by simp)
      · rename_i rest hrest
        rw [Except.ok.injEq] at h
        subst h
        rcases List.mem_cons.mp hmt with rfl | hmem
        · exact fromStr_ok_valid hmt1
        · exact ih hrest mt hmem

/-- The function `parseParts` succeeds chunkwise. -/
theorem parseParts_congr_ok : ∀ {ps : List (List Char)} {mts : List MediaType},
    List.Forall₂ (fun p mt => MediaType.fromStr (trimChars p) = Except.ok mt) ps mts →
    parseParts ps = Except.ok mts := by
  intro ps mts h
  induction h with
  | nil => rfl
  | cons h1 _ ih => simp only [parseParts, h1, ih]

/-! ## Rendered entries contain no whitespace and no commas -/

theorem render_no_ws (mt : MediaType) (hv : ValidMT mt) :
    ∀ c ∈ mt.render, ¬c.isWhitespace = true := by
  obtain ⟨mm, mw⟩ := mt
  intro c hc
  cases mw with
  | none =>
    have hr : MediaType.render ⟨mm, none⟩ = mimeRender mm := by
      unfold MediaType.render
      simp
    rw [hr] at hc
    exact mimeRender_no_ws hv.1 c hc
  | some w =>
    rw [show MediaType.render ⟨mm, some w⟩ =
      mimeRender mm ++ ';' :: 'q' :: '=' :: weightToChars w from rfl] at hc
    rcases List.mem_append.mp hc with h | h
    · exact mimeRender_no_ws hv.1 c h
    · rcases List.mem_cons.mp h with rfl | h
      · decide
      rcases List.mem_cons.mp h with rfl | h
      · decide
      rcases List.mem_cons.mp h with rfl | h
      · decide
      rcases weightToChars_digits_dot w c h with hd | rfl
      · exact digit_not_ws hd
      · decide

theorem render_no_comma (mt : MediaType) (hv : ValidMT mt) : ',' ∉ mt.render := by
  obtain ⟨mm, mw⟩ := mt
  intro hc
  cases mw with
  | none =>
    have hr : MediaType.render ⟨mm, none⟩ = mimeRender mm := by
      unfold MediaType.render
      simp
    rw [hr] at hc
    exact mimeRender_no_comma hv.1 hc
  | some w =>
    rw [show MediaType.render ⟨mm, some w⟩ =
      mimeRender mm ++ ';' :: 'q' :: '=' :: weightToChars w from rfl] at hc
    rcases List.mem_append.mp hc with h | h
    · exact mimeRender_no_comma hv.1 h
    · rcases List.mem_cons.mp h with h | h
      · exact absurd h (by decide)
      rcases List.mem_cons.mp h with h | h
      · exact absurd h (by decide)
      rcases List.mem_cons.mp h with h | h
      · exact absurd h (by decide)
      rcases weightToChars_digits_dot w ',' h with hd | hd
      · exact absurd hd (by decide)
      · exact absurd hd (by decide)

theorem trim_render (mt : MediaType) (hv : ValidMT mt) :
    trimChars mt.render = mt.render :=
  trimChars_of_forall_not_ws (render_no_ws mt hv)

/-! ## The sort: descending by weight, and sorting a sorted list is the
identity -/

/-- The sort key realised by `partial_cmp`: an absent weight sits strictly
below every explicit weight. -/
def wkey (mt : MediaType) : WithBot ℚ :=
  match mt.weight with
  | none => ⊥
  | some x => (x : WithBot ℚ)

theorem rustCmp_lt_iff (a b : MediaType) : rustCmp a b = .lt ↔ wkey b < wkey a := by
  cases ha : a.weight <;> cases hb : b.weight <;>
    simp only [rustCmp, MediaType.partialCmp, wkey, ha, hb, Option.getD_some]
  · simp
  · simp
  · simp [WithBot.bot_lt_coe]
  · rename_i x y
    split_ifs with h1 h2
    · simp [WithBot.coe_lt_coe, h1]
    · simp [WithBot.coe_lt_coe, h2, lt_irrefl]
    · have h3 : ¬(y : ℚ) < x := lt_asymm (lt_of_le_of_ne (not_lt.mp h1) (Ne.symm h2))
      simp [WithBot.coe_lt_coe, h3]

/-- Descending sortedness under the comparator's key. -/
def SortedDesc (l : List MediaType) : Prop :=
  l.Pairwise (fun a b => wkey b ≤ wkey a)

theorem insertDesc_sorted {x : MediaType} {l : List MediaType} (h : SortedDesc l) :
    SortedDesc (insertDesc x l) := by
  induction l with
  | nil => simp [insertDesc, SortedDesc]
  | cons y ys ih =>
    rw [SortedDesc, List.pairwise_cons] at h
    obtain ⟨hy, hys⟩ := h
    unfold insertDesc
    split
    · rename_i hc
      have hxy : wkey y < wkey x := (rustCmp_lt_iff x y).mp hc
      rw [SortedDesc, List.pairwise_cons]
      refine ⟨?_, List.pairwise_cons.mpr ⟨hy, hys⟩⟩
      intro z hz
      rcases List.mem_cons.mp hz with rfl | hz
      · exact le_of_lt hxy
      · exact le_trans (hy z hz) (le_of_lt hxy)
    · rename_i hc
      have hxy : wkey x ≤ wkey y :=
        le_of_not_lt (fun hlt => hc ((rustCmp_lt_iff x y).mpr hlt))
      rw [SortedDesc, List.pairwise_cons]
      refine ⟨?_, ih hys⟩
      intro z hz
      rcases (mem_insertDesc z x ys).mp hz with rfl | hz
      · exact hxy
      · exact hy z hz

theorem sortTypes_sorted (l : List MediaType) : SortedDesc (sortTypes l) := by
  suffices h : ∀ acc, SortedDesc acc →
      SortedDesc (l.foldl (fun acc x => insertDesc x acc) acc) by
    exact h [] (by simp [SortedDesc])
  induction l with
  | nil => intro acc h; exact h
  | cons x xs ih =>
    intro acc h
    rw [List.foldl_cons]
    exact ih _ (insertDesc_sorted h)

theorem insertDesc_append {x : MediaType} {l : List MediaType}
    (h : ∀ y ∈ l, ¬rustCmp x y = .lt) : insertDesc x l = l ++ [x] := by
  induction l with
  | nil => rfl
  | cons y ys ih =>
    unfold insertDesc
    rw [if_neg (h y (by simp)), ih (fun z hz => h z (by simp [hz]))]
    rfl

theorem sortTypes_of_sorted {l : List MediaType} (h : SortedDesc l) :
    sortTypes l = l := by
  suffices hgen : ∀ (l2 acc : List MediaType), SortedDesc (acc ++ l2) →
      l2.foldl (fun acc x => insertDesc x acc) acc = acc ++ l2 by
    simpa [sortTypes] using hgen l [] (by simpa using h)
  intro l2
  induction l2 with
  | nil => intro acc h2; simp
  | cons x xs ih =>
    intro acc h2
    rw [List.foldl_cons]
    have hins : insertDesc x acc = acc ++ [x] := by
      apply insertDesc_append
      intro y hy hlt
      have hxy : wkey y < wkey x := (rustCmp_lt_iff x y).mp hlt
      have hle : wkey x ≤ wkey y := by
        rw [SortedDesc, List.pairwise_append] at h2
        exact h2.2.2 y hy x (by simp)
      exact absurd hxy (not_lt.mpr hle)
    rw [hins]
    have h2' : SortedDesc ((acc ++ [x]) ++ xs) := by
      rw [List.append_assoc]
      exact h2
    rw [ih _ h2', List.append_assoc]
    rfl

/-! ## Splitting the rendered header -/

theorem splitOnChar_cons_ne {x c : Char} (l : List Char) (h : ¬x = c) :
    splitOnChar c (x :: l) =
      (x :: (splitOnChar c l).headD []) :: (splitOnChar c l).tail := by
  simp only [splitOnChar]
  rw [if_neg h]
  cases hsp : splitOnChar c l with
  | nil => exact absurd hsp (splitOnChar_ne_nil c l)
  | cons y ys => rfl

theorem splitOnChar_joinSep : ∀ ps : List (List Char), ps ≠ [] →
    (∀ p ∈ ps, ',' ∉ p) →
    splitOnChar ',' (joinSep [',', ' '] ps) =
      ps.headD [] :: ps.tail.map (fun q => ' ' :: q) := by
  intro ps
  induction ps with
  | nil => intro h; exact absurd rfl h
  | cons p rest ih =>
    intro _ hnc
    cases rest with
    | nil =>
      show splitOnChar ',' p = [p]
      exact splitOnChar_of_not_mem (hnc p (by simp))
    | cons q rest2 =>
      have hjoin : joinSep [',', ' '] (p :: q :: rest2) =
          p ++ ',' :: (' ' :: joinSep [',', ' '] (q :: rest2)) := by
        show p ++ [',', ' '] ++ joinSep [',', ' '] (q :: rest2) = _
        rw [List.append_assoc]
        rfl
      rw [hjoin, splitOnChar_append_sep _ (hnc p (by simp)),
        splitOnChar_cons_ne _ (by decide),
        ih (by simp) (fun r hr => hnc r (by simp [hr]))]
      rfl

theorem joinSep_snoc (sep : List Char) : ∀ ps : List (List Char), ps ≠ [] →
    ∀ q, joinSep sep (ps ++ [q]) = joinSep sep ps ++ sep ++ q := by
  intro ps
  induction ps with
  | nil => intro h; exact absurd rfl h
  | cons p rest ih =>
    intro _ q
    cases rest with
    | nil => rfl
    | cons r rest2 =>
      show p ++ sep ++ joinSep sep ((r :: rest2) ++ [q]) =
        (p ++ sep ++ joinSep sep (r :: rest2)) ++ sep ++ q
      rw [ih (by simp) q]
      simp [List.append_assoc]

theorem forall₂_append_chunks {α β : Type} {R : α → β → Prop} :
    ∀ {l1 : List α} {u1 : List β} {l2 : List α} {u2 : List β},
      List.Forall₂ R l1 u1 → List.Forall₂ R l2 u2 →
      List.Forall₂ R (l1 ++ l2) (u1 ++ u2) := by
  intro l1 u1 l2 u2 h1 h2
  induction h1 with
  | nil => exact h2
  | cons h _ ih => exact List.Forall₂.cons h ih

/-- C9, amended: the full round trip for every successfully parsed `Accept`
with a non-empty `types` list: rendering (non-wildcard entries in internal
order joined by `", "`, wildcard appended last, `";q=<weight>"` only when a
weight is present) and re-parsing yields the same `Accept`. -/
theorem c9_roundtrip (s : List Char) (acc : Accept)
    (hacc : Accept.fromStr s = Except.ok acc) (hne : acc.types ≠ []) :
    Accept.fromStr acc.render = Except.ok acc := by
  obtain ⟨entries, hentries⟩ :
      ∃ entries, parseParts (splitOnChar ',' s) = Except.ok entries := by
    unfold Accept.fromStr at hacc
    cases hp : parseParts (splitOnChar ',' s) with
    | error e =>
      rw [hp] at hacc
      exact absurd hacc (by simp)
    | ok entries => exact ⟨entries, rfl⟩
  have hacc' : Accept.mk ((entries.foldl scanStep (none, [])).1)
      (sortTypes ((entries.foldl scanStep (none, [])).2)) = acc := by
    have h := hacc
    unfold Accept.fromStr at h
    rw [hentries] at h
    exact Except.ok.inj h
  have hw0 : acc.wildcard =
      (entries.filter (fun mt => decide (mt.mime.type_ = starChars))).getLast? := by
    rw [← hacc']
    show (entries.foldl scanStep (none, [])).1 = _
    rw [foldl_scanStep_fst, Option.or_none]
  have ht0 : acc.types =
      sortTypes (entries.filter (fun mt => !decide (mt.mime.type_ = starChars))) := by
    rw [← hacc']
    show sortTypes ((entries.foldl scanStep (none, [])).2) = _
    rw [foldl_scanStep_snd, List.nil_append]
  have hvalid : ∀ mt ∈ entries, ValidMT mt := parseParts_ok_valid hentries
  have htmem : ∀ mt ∈ acc.types, ValidMT mt ∧ ¬mt.mime.type_ = starChars := by
    intro mt hmt
    rw [ht0, mem_sortTypes] at hmt
    have h1 := List.mem_filter.mp hmt
    exact ⟨hvalid mt h1.1, by simpa using h1.2⟩
  have hsortid : sortTypes acc.types = acc.types :=
    sortTypes_of_sorted (by rw [ht0]; exact sortTypes_sorted _)
  have hfilter_star :
      acc.types.filter (fun mt => decide (mt.mime.type_ = starChars)) = [] :=
    List.filter_eq_nil_iff.mpr (fun mt hmt => by simpa using (htmem mt hmt).2)
  have hfilter_nonstar :
      acc.types.filter (fun mt => !decide (mt.mime.type_ = starChars)) = acc.types :=
    List.filter_eq_self.mpr (fun mt hmt => by simpa using (htmem mt hmt).2)
  obtain ⟨t1, trest, htl⟩ : ∃ t1 trest, acc.types = t1 :: trest := by
    cases h : acc.types with
    | nil => exact absurd h hne
    | cons a b => exact ⟨a, b, rfl⟩
  have ht1mem : t1 ∈ acc.types := by rw [htl]; simp
  have htrestmem : ∀ mt ∈ trest, mt ∈ acc.types := by
    intro mt hmt
    rw [htl]
    simp [hmt]
  have hfar_rest : List.Forall₂ (fun p mt => MediaType.fromStr (trimChars p) = Except.ok mt)
      (trest.map (fun mt => ' ' :: mt.render)) trest := by
    rw [List.forall₂_map_left_iff, List.forall₂_same]
    intro mt hmt
    show MediaType.fromStr (trimChars (' ' :: mt.render)) = Except.ok mt
    rw [trimChars_cons_ws _ (by decide),
      trim_render mt (htmem mt (htrestmem mt hmt)).1]
    exact mt_render_roundtrip mt (htmem mt (htrestmem mt hmt)).1
  have hfar_t1 : MediaType.fromStr (trimChars (MediaType.render t1)) = Except.ok t1 := by
    rw [trim_render t1 (htmem t1 ht1mem).1]
    exact mt_render_roundtrip t1 (htmem t1 ht1mem).1
  have hnc : ∀ p ∈ acc.types.map MediaType.render, ',' ∉ p := by
    intro p hp
    obtain ⟨mt, hmt, rfl⟩ := List.mem_map.mp hp
    exact render_no_comma mt (htmem mt hmt).1
  cases hwc : acc.wildcard with
  | none =>
    have hrender : acc.render = joinSep [',', ' '] (acc.types.map MediaType.render) := by
      unfold Accept.render
      rw [hwc]
      show joinSep ", ".data (acc.types.map MediaType.render) ++ [] = _
      rw [List.append_nil]
    rw [hrender]
    unfold Accept.fromStr
    rw [splitOnChar_joinSep _ (by simp [htl]) hnc, htl]
    have hsplitform : (((t1 :: trest).map MediaType.render).headD []) ::
        (((t1 :: trest).map MediaType.render).tail.map (fun q => ' ' :: q)) =
        MediaType.render t1 :: trest.map (fun mt => ' ' :: mt.render) := by
      simp [List.map_map, Function.comp]
    rw [hsplitform, parseParts_congr_ok (List.Forall₂.cons hfar_t1 hfar_rest)]
    show Except.ok (Accept.mk (((t1 :: trest).foldl scanStep (none, [])).1)
      (sortTypes (((t1 :: trest).foldl scanStep (none, [])).2))) = Except.ok acc
    rw [foldl_scanStep_fst, foldl_scanStep_snd, List.nil_append, ← htl,
      hfilter_star, hfilter_nonstar, hsortid]
    have hwfinal : (Option.or (List.getLast? ([] : List MediaType)) none) = acc.wildcard := by
      rw [hwc]
      rfl
    rw [hwfinal]
  | some w =>
    have hwmem : w ∈ entries.filter (fun mt => decide (mt.mime.type_ = starChars)) := by
      have h := hw0
      rw [hwc] at h
      obtain ⟨ys, hys⟩ := List.getLast?_eq_some_iff.mp h.symm
      rw [hys]
      simp
    have hwvalid : ValidMT w := hvalid w (List.mem_filter.mp hwmem).1
    have hwstar : w.mime.type_ = starChars := by
      simpa using (List.mem_filter.mp hwmem).2
    have hrender : acc.render =
        joinSep [',', ' '] (acc.types.map MediaType.render ++ [MediaType.render w]) := by
      unfold Accept.render
      rw [hwc, joinSep_snoc _ _ (by simp [htl]) (MediaType.render w), List.append_assoc]
      rfl
    have hnc2 : ∀ p ∈ acc.types.map MediaType.render ++ [MediaType.render w], ',' ∉ p := by
      intro p hp
      rcases List.mem_append.mp hp with h | h
      · exact hnc p h
      · simp only [List.mem_singleton] at h
        subst h
        exact render_no_comma w hwvalid
    rw [hrender]
    unfold Accept.fromStr
    rw [splitOnChar_joinSep _ (by simp [htl]) hnc2]
    have hsplitform : ((acc.types.map MediaType.render ++ [MediaType.render w]).headD []) ::
        ((acc.types.map MediaType.render ++ [MediaType.render w]).tail.map
          (fun q => ' ' :: q)) =
        MediaType.render t1 ::
          (trest.map (fun mt => ' ' :: mt.render) ++ [' ' :: MediaType.render w]) := by
      rw [htl]
      simp [List.map_map, Function.comp]
    have hfar_w : MediaType.fromStr (trimChars (' ' :: MediaType.render w)) = Except.ok w := by
      rw [trimChars_cons_ws _ (by decide), trim_render w hwvalid]
      exact mt_render_roundtrip w hwvalid
    have hfar_all : List.Forall₂
        (fun p mt => MediaType.fromStr (trimChars p) = Except.ok mt)
        (MediaType.render t1 ::
          (trest.map (fun mt => ' ' :: mt.render) ++ [' ' :: MediaType.render w]))
        (t1 :: (trest ++ [w])) :=
      List.Forall₂.cons hfar_t1
        (forall₂_append_chunks hfar_rest (List.Forall₂.cons hfar_w List.Forall₂.nil))
    rw [hsplitform, parseParts_congr_ok hfar_all]
    show Except.ok (Accept.mk (((t1 :: (trest ++ [w])).foldl scanStep (none, [])).1)
      (sortTypes (((t1 :: (trest ++ [w])).foldl scanStep (none, [])).2))) = Except.ok acc
    have hlist : t1 :: (trest ++ [w]) = acc.types ++ [w] := by
      rw [htl]
      rfl
    rw [hlist, foldl_scanStep_fst, foldl_scanStep_snd, List.nil_append,
      List.filter_append, List.filter_append, hfilter_star, hfilter_nonstar]
    have hfw1 : ([w] : List MediaType).filter
        (fun mt => decide (mt.mime.type_ = starChars)) = [w] := by
      simp [List.filter_cons, hwstar]
    have hfw2 : ([w] : List MediaType).filter
        (fun mt => !decide (mt.mime.type_ = starChars)) = [] := by
      simp [List.filter_cons, hwstar]
    rw [hfw1, hfw2, List.append_nil, hsortid]
    have hwfinal : (Option.or (List.getLast? (([] : List MediaType) ++ [w])) none) =
        acc.wildcard := by
      rw [hwc]
      rfl
    rw [hwfinal]

/-- Witness for C9 (amended): a concrete parse with non-empty `types`
round-trips. -/
theorem c9_witness :
    Accept.fromStr "text/html;q=0.9, */*;q=0.7".data =
      Except.ok ⟨some ⟨⟨starChars, starChars⟩, some (Rat.divInt 7 10)⟩,
        [⟨textHtmlMime, some (Rat.divInt 9 10)⟩]⟩ ∧
    Accept.fromStr (Accept.render ⟨some ⟨⟨starChars, starChars⟩, some (Rat.divInt 7 10)⟩,
        [⟨textHtmlMime, some (Rat.divInt 9 10)⟩]⟩) =
      Except.ok ⟨some ⟨⟨starChars, starChars⟩, some (Rat.divInt 7 10)⟩,
        [⟨textHtmlMime, some (Rat.divInt 9 10)⟩]⟩ :=
  ⟨rfl, c9_roundtrip "text/html;q=0.9, */*;q=0.7".data _ rfl (by decide)⟩
